import Mathlib

/-
Verification of the jitcalc code-generation and native-execution pipeline.

The development shallowly embeds the Rust sources:
  * the abstract instruction set and tokenizer (`parse`),
  * the x86_64 bit-field encoders (`rex`, `modrm`) and opcode emitters,
  * the code generator (`jit`),
  * the reference interpreter (`interpret`, whose accumulator is a `u64`,
    modelled as a natural number with wrap-around modulo 2^64),
  * a small x86_64 machine semantics for exactly the instructions the
    emitters produce (registers rax, rcx, rdx as 64-bit values), together
    with a decoder from the emitted bytes to those instructions, and
  * the execution engine (`exec`), whose mmap permission transitions are
    modelled from the spec because the mmap library is outside the sources.
-/

set_option maxRecDepth 4096

namespace Jitcalc

/-- The abstract instruction set, from `enum Insn` in main.rs: two
driver-only ops (`Reset`, `Return`) and four user-visible ops. -/
inductive Insn where
  | Reset
  | Return
  | Incr
  | Decr
  | Double
  | Halve
deriving DecidableEq, Repr

/-- The character table inside `parse` in main.rs: each recognized
character maps to one instruction, everything else to `none`. -/
def charToInsn (ch : Char) : Option Insn :=
  if ch = '+' then some Insn.Incr
  else if ch = '-' then some Insn.Decr
  else if ch = '*' then some Insn.Double
  else if ch = '/' then some Insn.Halve
  else none

/-- `parse` from main.rs: map each character through the table and keep
the hits (`.map(..).filter_map(id).collect()`). -/
def parse (program : String) : List Insn :=
  (program.toList.map charToInsn).filterMap id

namespace x86_64

/-- REX prefix option bits, from `enum Rex` in the x86_64 module. -/
inductive Rex where
  | W
  | R
  | X
  | B
deriving DecidableEq, Repr

/-- The shift for each REX option, from the `match` inside `rex`. -/
def rexShift : Rex → Nat
  | Rex.W => 3
  | Rex.R => 2
  | Rex.X => 1
  | Rex.B => 0

/-- `rex` from the x86_64 module: start from 0b01000000 and OR in
`1 << shift` for each supplied option. -/
def rex (opts : List Rex) : Nat :=
  opts.foldl (fun r opt => r ||| (1 <<< rexShift opt)) 0b01000000

/-- ModRM field descriptors, from `enum ModRM` in the x86_64 module. -/
inductive ModRM where
  | Mod (m : Nat)
  | Reg (r : Nat)
  | RM (b : Nat)
deriving DecidableEq, Repr

/-- One step of the accumulation loop inside `modrm`: each field is
masked to its width and shifted to its position. -/
def modrmStep (acc : Nat) : ModRM → Nat
  | ModRM.Mod m => acc ||| ((m &&& 0b11) <<< 6)
  | ModRM.Reg r => acc ||| ((r &&& 0b111) <<< 3)
  | ModRM.RM b => acc ||| (b &&& 0b111)

/-- `modrm` from the x86_64 module: fold the field parts into one byte. -/
def modrm (parts : List ModRM) : Nat :=
  parts.foldl modrmStep 0

/-- `reset_accum`: XOR rax, rax (REX.W + 31 /r). -/
def reset_accum : List Nat :=
  [rex [Rex.W], 0x31, modrm [ModRM.Mod 0x3, ModRM.Reg 0x00]]

/-- `func_return`: RET. -/
def func_return : List Nat :=
  [0xC3]

/-- `incr`: ADD r/m64, imm8 (REX.W + 83 /0 ib) with immediate 1. -/
def incr : List Nat :=
  [rex [Rex.W], 0x83, modrm [ModRM.Mod 0x3], 0x01]

/-- `decr`: SUB r/m64, imm32 (REX.W + 81 /5 id) with immediate 1. -/
def decr : List Nat :=
  [rex [Rex.W], 0x81, modrm [ModRM.Mod 0x3, ModRM.Reg 0x05, ModRM.RM 0x00],
   0x01, 0x00, 0x00, 0x00]

/-- `double`: MOV rcx, 2 (REX.W + C7 /0) then IMUL rcx (REX.W + F7 /5). -/
def double : List Nat :=
  [rex [Rex.W], 0xC7, modrm [ModRM.Mod 0x3, ModRM.RM 0x01],
   0x02, 0x00, 0x00, 0x00,
   rex [Rex.W], 0xF7, modrm [ModRM.Mod 0x3, ModRM.Reg 0x05, ModRM.RM 0x01]]

/-- `halve`: MOV rcx, 2 (REX.W + C7 /0) then IDIV rcx (REX.W + F7 /7). -/
def halve : List Nat :=
  [rex [Rex.W], 0xC7, modrm [ModRM.Mod 0x3, ModRM.RM 0x01],
   0x02, 0x00, 0x00, 0x00,
   rex [Rex.W], 0xF7, modrm [ModRM.Mod 0x3, ModRM.Reg 0x07, ModRM.RM 0x01]]

/-- `native_insns` from the x86_64 module: emitter dispatch per opcode. -/
def native_insns : Insn → List Nat
  | Insn.Reset => reset_accum
  | Insn.Return => func_return
  | Insn.Incr => incr
  | Insn.Decr => decr
  | Insn.Double => double
  | Insn.Halve => halve

end x86_64

/-- `jit` from main.rs: start from the `Reset` emitter's bytes, extend
with each instruction's bytes in order, then extend with the `Return`
emitter's bytes. -/
def jit (insn_seq : List Insn) : List Nat :=
  (insn_seq.foldl (fun acc i => acc ++ x86_64.native_insns i)
      (x86_64.native_insns Insn.Reset))
    ++ x86_64.native_insns Insn.Return

/-- 2^64, the modulus of the u64 accumulator and of the machine
registers. -/
def W64 : Nat := 2 ^ 64

/-- The loop of `interpret` from main.rs, with the accumulator taken at
an arbitrary starting value.  The Rust accumulator is a `u64`; its
arithmetic is modelled with release-build (wrap-around) semantics:
`accum -= 1` wraps (0 - 1 gives 2^64 - 1) and `accum /= 2` is unsigned
division.  `Return` breaks out of the loop. -/
def interpretFrom : Nat → List Insn → Nat
  | accum, [] => accum
  | _, Insn.Reset :: rest => interpretFrom 0 rest
  | accum, Insn.Return :: _ => accum
  | accum, Insn.Incr :: rest => interpretFrom ((accum + 1) % W64) rest
  | accum, Insn.Decr :: rest =>
    interpretFrom (if accum = 0 then W64 - 1 else accum - 1) rest
  | accum, Insn.Double :: rest => interpretFrom ((accum * 2) % W64) rest
  | accum, Insn.Halve :: rest => interpretFrom (accum / 2) rest

/-- `interpret` from main.rs: fold the sequence from accumulator 0. -/
def interpret (insn_seq : List Insn) : Nat :=
  interpretFrom 0 insn_seq

/-- The loop of `interpret` under debug-build (checked) semantics: a u64
overflow in `accum += 1` or underflow in `accum -= 1` is a panic,
modelled as `none`. -/
def interpretCheckedFrom : Nat → List Insn → Option Nat
  | accum, [] => some accum
  | _, Insn.Reset :: rest => interpretCheckedFrom 0 rest
  | accum, Insn.Return :: _ => some accum
  | accum, Insn.Incr :: rest =>
    if accum + 1 < W64 then interpretCheckedFrom (accum + 1) rest else none
  | accum, Insn.Decr :: rest =>
    if 0 < accum then interpretCheckedFrom (accum - 1) rest else none
  | accum, Insn.Double :: rest =>
    if accum * 2 < W64 then interpretCheckedFrom (accum * 2) rest else none
  | accum, Insn.Halve :: rest => interpretCheckedFrom (accum / 2) rest

/-- `interpret` under debug-build (checked) semantics. -/
def interpretChecked (insn_seq : List Insn) : Option Nat :=
  interpretCheckedFrom 0 insn_seq

/-- The x86_64 machine state visible to the generated code: the three
registers it can touch, each holding a 64-bit value (a natural number
below 2^64, interpreted as two's complement where signed). -/
structure MState where
  rax : Nat
  rcx : Nat
  rdx : Nat
deriving DecidableEq, Repr

/-- Signed (two's complement) reading of a 64-bit register value. -/
def toI64 (x : Nat) : Int :=
  if x < 2 ^ 63 then (x : Int) else (x : Int) - (W64 : Int)

/-- The 128-bit two's complement value held in the register pair
RDX:RAX, as consumed by IDIV. -/
def rdxRaxVal (s : MState) : Int :=
  let u : Nat := s.rdx * W64 + s.rax
  if u < 2 ^ 127 then (u : Int) else (u : Int) - (2 ^ 128 : Int)

/-- The machine instructions that the x86_64 emitters produce.  Each
constructor names one concrete emitted instruction. -/
inductive MOp where
  | XorRaxRax
  | AddRax1
  | SubRax1
  | MovRcx2
  | ImulRcx
  | IdivRcx
  | Ret
deriving DecidableEq, Repr

/-- Architectural effect of one machine instruction (`Ret` is handled by
the runners).  `ImulRcx` is the one-operand IMUL: RDX:RAX gets the full
128-bit signed product RAX * RCX.  `IdivRcx` is the 64-bit IDIV: it
divides the 128-bit RDX:RAX by RCX with truncation toward zero, writing
the quotient to RAX and the remainder to RDX; division by zero or a
quotient outside the signed 64-bit range raises #DE, modelled as
`none`. -/
def stepOp : MOp → MState → Option MState
  | MOp.XorRaxRax, s => some { s with rax := 0 }
  | MOp.AddRax1, s => some { s with rax := (s.rax + 1) % W64 }
  | MOp.SubRax1, s =>
    some { s with rax := if s.rax = 0 then W64 - 1 else s.rax - 1 }
  | MOp.MovRcx2, s => some { s with rcx := 2 }
  | MOp.ImulRcx, s =>
    let p : Int := toI64 s.rax * toI64 s.rcx
    let u : Int := p % (2 ^ 128 : Int)
    some { s with rax := (u % ((W64 : Nat) : Int)).toNat,
                  rdx := (u / ((W64 : Nat) : Int)).toNat }
  | MOp.IdivRcx, s =>
    let c : Int := toI64 s.rcx
    if c = 0 then none
    else
      let d : Int := rdxRaxVal s
      let q : Int := d.tdiv c
      let r : Int := d.tmod c
      if q < -(2 ^ 63 : Int) ∨ (2 ^ 63 : Int) ≤ q then none
      else some { s with rax := (q % ((W64 : Nat) : Int)).toNat,
                         rdx := (r % ((W64 : Nat) : Int)).toNat }
  | MOp.Ret, s => some s

/-- Run a straight-line block of machine instructions; `Ret` is a
no-op here (used for reasoning about single emitters' bodies). -/
def runAll : List MOp → MState → Option MState
  | [], s => some s
  | op :: rest, s => (stepOp op s).bind (runAll rest)

/-- Run machine instructions as the CPU does: `Ret` stops and yields
the current state; falling off the end of the code without a `Ret`
is undefined behavior, modelled as `none`. -/
def runMops : List MOp → MState → Option MState
  | [], _ => none
  | op :: rest, s =>
    if op = MOp.Ret then some s else (stepOp op s).bind (runMops rest)

/-- Decoder for exactly the byte patterns the x86_64 emitters produce
(XOR rax,rax; RET; ADD rax,1; SUB rax,1; MOV rcx,2; IMUL rcx;
IDIV rcx); any other byte pattern is `none`. -/
def decodeX86 : List Nat → Option (List MOp)
  | [] => some []
  | 0xC3 :: rest => (decodeX86 rest).map (fun l => MOp.Ret :: l)
  | 0x48 :: 0x31 :: 0xC0 :: rest =>
    (decodeX86 rest).map (fun l => MOp.XorRaxRax :: l)
  | 0x48 :: 0x83 :: 0xC0 :: 0x01 :: rest =>
    (decodeX86 rest).map (fun l => MOp.AddRax1 :: l)
  | 0x48 :: 0x81 :: 0xE8 :: 0x01 :: 0x00 :: 0x00 :: 0x00 :: rest =>
    (decodeX86 rest).map (fun l => MOp.SubRax1 :: l)
  | 0x48 :: 0xC7 :: 0xC1 :: 0x02 :: 0x00 :: 0x00 :: 0x00 :: rest =>
    (decodeX86 rest).map (fun l => MOp.MovRcx2 :: l)
  | 0x48 :: 0xF7 :: 0xE9 :: rest =>
    (decodeX86 rest).map (fun l => MOp.ImulRcx :: l)
  | 0x48 :: 0xF7 :: 0xF9 :: rest =>
    (decodeX86 rest).map (fun l => MOp.IdivRcx :: l)
  | _ => none

/-- The result of calling a byte buffer as native code from an initial
register state: decode the bytes, run them to the `Ret`, and read RAX
back as a signed 64-bit integer.  `none` models undefined behavior or
a CPU exception. -/
def execBytes (code : List Nat) (s0 : MState) : Option Int :=
  (decodeX86 code).bind (fun ops =>
    (runMops ops { rax := s0.rax % W64, rcx := s0.rcx % W64,
                   rdx := s0.rdx % W64 }).map (fun s => toI64 s.rax))

/-- The error taxonomy of the execution engine.  Modelled from the
spec: the Rust `exec` propagates errors of the mmap library (which is
outside the sources) verbatim; the spec states that the failure form
distinguishes allocation failure from permission-transition failure. -/
inductive ExecError where
  | AllocationError
  | PermissionError
deriving DecidableEq, Repr

/-- Host responses to the three fallible steps of `exec`: the anonymous
mapping request, the read-only transition, and the executable
transition. -/
structure Host where
  allocOk : Bool
  roOk : Bool
  execOk : Bool
deriving DecidableEq, Repr

/-- Observable events of one `exec` invocation, in the order the Rust
code performs them. -/
inductive Ev where
  | Alloc
  | CopyBuf
  | MakeReadOnly
  | MakeExec
  | CallFn
deriving DecidableEq, Repr

/-- Region permission bits (writable, executable). -/
structure MemPerm where
  w : Bool
  x : Bool
deriving DecidableEq, Repr

/-- Region permissions after each event.  Modelled from the spec: the
mmap library's `map_mut` yields a writable (non-executable) region,
`make_read_only` a read-only one, `make_exec` an executable
(non-writable) one. -/
def permAfter : Ev → MemPerm
  | Ev.Alloc => { w := true, x := false }
  | Ev.CopyBuf => { w := true, x := false }
  | Ev.MakeReadOnly => { w := false, x := false }
  | Ev.MakeExec => { w := false, x := true }
  | Ev.CallFn => { w := false, x := true }

/-- `exec` from main.rs, over an abstract host: allocate a writable
region (or fail), copy the buffer in, make it read-only (or fail),
make it executable (or fail), then call it.  Each failure returns
immediately; the trace records the events that happened.  The call's
value is `execBytes` of the buffer from the initial register state. -/
def execEngine (h : Host) (code : List Nat) (s0 : MState) :
    List Ev × Except ExecError (Option Int) :=
  if h.allocOk = false then
    ([], Except.error ExecError.AllocationError)
  else if h.roOk = false then
    ([Ev.Alloc, Ev.CopyBuf], Except.error ExecError.PermissionError)
  else if h.execOk = false then
    ([Ev.Alloc, Ev.CopyBuf, Ev.MakeReadOnly],
     Except.error ExecError.PermissionError)
  else
    ([Ev.Alloc, Ev.CopyBuf, Ev.MakeReadOnly, Ev.MakeExec, Ev.CallFn],
     Except.ok (execBytes code s0))

/-- The machine instructions denoted by each emitter's bytes. -/
def mopsOfInsn : Insn → List MOp
  | Insn.Reset => [MOp.XorRaxRax]
  | Insn.Return => [MOp.Ret]
  | Insn.Incr => [MOp.AddRax1]
  | Insn.Decr => [MOp.SubRax1]
  | Insn.Double => [MOp.MovRcx2, MOp.ImulRcx]
  | Insn.Halve => [MOp.MovRcx2, MOp.IdivRcx]

/-- The machine instructions denoted by a whole sequence's emitters. -/
def mopsOf (seq : List Insn) : List MOp :=
  (seq.map mopsOfInsn).flatten

/-- Folding list-append over a sequence is the flattened map: the shape
of the `extend` loop inside `jit`. -/
theorem foldl_extend (f : Insn → List Nat) :
    ∀ (l : List Insn) (acc : List Nat),
      l.foldl (fun a i => a ++ f i) acc = acc ++ (l.map f).flatten
  | [], acc => by simp
  | i :: rest, acc => by
    simp [List.foldl_cons, foldl_extend f rest, List.append_assoc]

/-- `jit` is exactly prologue ++ body ++ epilogue. -/
theorem jit_eq (seq : List Insn) :
    jit seq = x86_64.reset_accum
      ++ (seq.map x86_64.native_insns).flatten ++ x86_64.func_return := by
  have h1 : x86_64.native_insns Insn.Reset = x86_64.reset_accum := rfl
  have h2 : x86_64.native_insns Insn.Return = x86_64.func_return := rfl
  simp [jit, foldl_extend, List.append_assoc, h1, h2]

/-- Only the four user-visible instructions come out of the character
table. -/
theorem charToInsn_user (c : Char) (i : Insn) (h : charToInsn c = some i) :
    i ≠ Insn.Reset ∧ i ≠ Insn.Return := by
  unfold charToInsn at h
  split_ifs at h <;> simp_all <;> subst h <;> decide

/-- Each recognized character contributes exactly one instruction. -/
theorem parseChars_length :
    ∀ cs : List Char,
      (cs.filterMap charToInsn).length
        = (cs.filter (fun c => (charToInsn c).isSome)).length
  | [] => rfl
  | c :: rest => by
    cases h : charToInsn c <;>
      simp [List.filterMap_cons, List.filter_cons, h, parseChars_length rest]

/-- `parse` is the direct filterMap of the character table. -/
theorem parse_eq_filterMap (s : String) :
    parse s = s.toList.filterMap charToInsn := by
  simp [parse]

/-- Concrete bytes of the Reset emitter. -/
theorem reset_accum_bytes : x86_64.reset_accum = [0x48, 0x31, 0xC0] := rfl

/-- Concrete bytes of the Return emitter. -/
theorem func_return_bytes : x86_64.func_return = [0xC3] := rfl

/-- Concrete bytes of the Increment emitter. -/
theorem incr_bytes : x86_64.incr = [0x48, 0x83, 0xC0, 0x01] := rfl

/-- Concrete bytes of the Decrement emitter. -/
theorem decr_bytes :
    x86_64.decr = [0x48, 0x81, 0xE8, 0x01, 0x00, 0x00, 0x00] := rfl

/-- Concrete bytes of the Double emitter. -/
theorem double_bytes :
    x86_64.double = [0x48, 0xC7, 0xC1, 0x02, 0x00, 0x00, 0x00,
      0x48, 0xF7, 0xE9] := rfl

/-- Concrete bytes of the Halve emitter. -/
theorem halve_bytes :
    x86_64.halve = [0x48, 0xC7, 0xC1, 0x02, 0x00, 0x00, 0x00,
      0x48, 0xF7, 0xF9] := rfl

/-- Decoding step: XOR rax, rax. -/
theorem decode_xor (rest : List Nat) :
    decodeX86 (0x48 :: 0x31 :: 0xC0 :: rest)
      = (decodeX86 rest).map (fun l => MOp.XorRaxRax :: l) := rfl

/-- Decoding step: RET. -/
theorem decode_ret (rest : List Nat) :
    decodeX86 (0xC3 :: rest)
      = (decodeX86 rest).map (fun l => MOp.Ret :: l) := rfl

/-- Decoding step: ADD rax, 1. -/
theorem decode_add (rest : List Nat) :
    decodeX86 (0x48 :: 0x83 :: 0xC0 :: 0x01 :: rest)
      = (decodeX86 rest).map (fun l => MOp.AddRax1 :: l) := rfl

/-- Decoding step: SUB rax, 1. -/
theorem decode_sub (rest : List Nat) :
    decodeX86 (0x48 :: 0x81 :: 0xE8 :: 0x01 :: 0x00 :: 0x00 :: 0x00 :: rest)
      = (decodeX86 rest).map (fun l => MOp.SubRax1 :: l) := rfl

/-- Decoding step: MOV rcx, 2. -/
theorem decode_mov (rest : List Nat) :
    decodeX86 (0x48 :: 0xC7 :: 0xC1 :: 0x02 :: 0x00 :: 0x00 :: 0x00 :: rest)
      = (decodeX86 rest).map (fun l => MOp.MovRcx2 :: l) := rfl

/-- Decoding step: IMUL rcx. -/
theorem decode_imul (rest : List Nat) :
    decodeX86 (0x48 :: 0xF7 :: 0xE9 :: rest)
      = (decodeX86 rest).map (fun l => MOp.ImulRcx :: l) := rfl

/-- Decoding step: IDIV rcx. -/
theorem decode_idiv (rest : List Nat) :
    decodeX86 (0x48 :: 0xF7 :: 0xF9 :: rest)
      = (decodeX86 rest).map (fun l => MOp.IdivRcx :: l) := rfl

/-- Decoding an emitter's bytes in front of any tail yields that
emitter's machine ops in front of the tail's decoding. -/
theorem decode_insn_append (i : Insn) (rest : List Nat) :
    decodeX86 (x86_64.native_insns i ++ rest)
      = (decodeX86 rest).map (fun l => mopsOfInsn i ++ l) := by
  cases i <;>
    simp only [x86_64.native_insns, reset_accum_bytes, func_return_bytes,
      incr_bytes, decr_bytes, double_bytes, halve_bytes, mopsOfInsn,
      List.cons_append, List.nil_append, decode_xor, decode_ret,
      decode_add, decode_sub, decode_mov, decode_imul, decode_idiv,
      Option.map_map] <;>
    cases decodeX86 rest <;> rfl

/-- Decoding a flattened sequence of emitter bytes. -/
theorem decode_flatten (seq : List Insn) (rest : List Nat) :
    decodeX86 ((seq.map x86_64.native_insns).flatten ++ rest)
      = (decodeX86 rest).map (fun l => mopsOf seq ++ l) := by
  induction seq with
  | nil => cases h : decodeX86 rest <;> simp [mopsOf, h]
  | cons i tl ih =>
    rw [List.map_cons, List.flatten_cons, List.append_assoc,
      decode_insn_append, ih]
    cases decodeX86 rest <;> simp [mopsOf, List.append_assoc]

/-- The generated buffer decodes to reset, the sequence's ops, return. -/
theorem decode_jit (seq : List Insn) :
    decodeX86 (jit seq)
      = some (MOp.XorRaxRax :: (mopsOf seq ++ [MOp.Ret])) := by
  rw [jit_eq, List.append_assoc]
  have hres : x86_64.reset_accum
      = x86_64.native_insns Insn.Reset := rfl
  rw [hres, decode_insn_append, decode_flatten]
  have hret : decodeX86 x86_64.func_return = some [MOp.Ret] := rfl
  simp [hret, mopsOfInsn]

/-- One step of the safety analysis for a user instruction, tracking
the interpreter accumulator and what is known about the machine's RDX
register (`some v`: RDX holds v; `none`: RDX still holds whatever the
caller left there).  An instruction is safe when the u64 interpreter
and the emitted code provably agree across it: the accumulator stays
comfortably in range (below 2^62, hence non-negative and without
wrap-around), and a Halve only runs when RDX is known to be zero. -/
def safeStep : Insn → Nat × Option Nat → Option (Nat × Option Nat)
  | Insn.Reset, _ => none
  | Insn.Return, _ => none
  | Insn.Incr, (a, d) => if a + 1 < 2 ^ 62 then some (a + 1, d) else none
  | Insn.Decr, (a, d) => if 0 < a then some (a - 1, d) else none
  | Insn.Double, (a, _) =>
    if a * 2 < 2 ^ 62 then some (a * 2, some 0) else none
  | Insn.Halve, (a, d) =>
    if d = some 0 then some (a / 2, some (a % 2)) else none

/-- The safety analysis over a whole sequence. -/
def safeRun : List Insn → Nat × Option Nat → Option (Nat × Option Nat)
  | [], st => some st
  | i :: rest, st => (safeStep i st).bind (safeRun rest)

/-- A sequence is safe when the analysis succeeds from the initial
state: accumulator 0, RDX unknown. -/
def safeSeq (seq : List Insn) : Bool :=
  (safeRun seq (0, none)).isSome

/-- What the safety analysis knows about RDX is true of the state. -/
def dOK (d : Option Nat) (s : MState) : Prop :=
  ∀ v, d = some v → s.rdx = v

/-- The machine-op list of a cons. -/
theorem mopsOf_cons (i : Insn) (tl : List Insn) :
    mopsOf (i :: tl) = mopsOfInsn i ++ mopsOf tl := by
  simp [mopsOf]

/-- Unfolding: safety analysis of the empty sequence. -/
theorem safeRun_nil (st : Nat × Option Nat) : safeRun [] st = some st := rfl

/-- Unfolding: safety analysis of a cons. -/
theorem safeRun_cons (i : Insn) (tl : List Insn) (st : Nat × Option Nat) :
    safeRun (i :: tl) st = (safeStep i st).bind (safeRun tl) := rfl

/-- Unfolding: Reset is not a user instruction. -/
theorem safeStep_reset (st : Nat × Option Nat) :
    safeStep Insn.Reset st = none := rfl

/-- Unfolding: Return is not a user instruction. -/
theorem safeStep_ret (st : Nat × Option Nat) :
    safeStep Insn.Return st = none := rfl

/-- Unfolding: safety step for Increment. -/
theorem safeStep_incr (a : Nat) (d : Option Nat) :
    safeStep Insn.Incr (a, d)
      = if a + 1 < 2 ^ 62 then some (a + 1, d) else none := rfl

/-- Unfolding: safety step for Decrement. -/
theorem safeStep_decr (a : Nat) (d : Option Nat) :
    safeStep Insn.Decr (a, d)
      = if 0 < a then some (a - 1, d) else none := rfl

/-- Unfolding: safety step for Double. -/
theorem safeStep_double (a : Nat) (d : Option Nat) :
    safeStep Insn.Double (a, d)
      = if a * 2 < 2 ^ 62 then some (a * 2, some 0) else none := rfl

/-- Unfolding: safety step for Halve. -/
theorem safeStep_halve (a : Nat) (d : Option Nat) :
    safeStep Insn.Halve (a, d)
      = if d = some 0 then some (a / 2, some (a % 2)) else none := rfl

/-- Unfolding: the interpreter on each instruction. -/
theorem interpretFrom_reset (a : Nat) (tl : List Insn) :
    interpretFrom a (Insn.Reset :: tl) = interpretFrom 0 tl := rfl

/-- Unfolding: the interpreter stops at Return. -/
theorem interpretFrom_ret (a : Nat) (tl : List Insn) :
    interpretFrom a (Insn.Return :: tl) = a := rfl

/-- Unfolding: the interpreter on Increment. -/
theorem interpretFrom_incr (a : Nat) (tl : List Insn) :
    interpretFrom a (Insn.Incr :: tl)
      = interpretFrom ((a + 1) % W64) tl := rfl

/-- Unfolding: the interpreter on Decrement. -/
theorem interpretFrom_decr (a : Nat) (tl : List Insn) :
    interpretFrom a (Insn.Decr :: tl)
      = interpretFrom (if a = 0 then W64 - 1 else a - 1) tl := rfl

/-- Unfolding: the interpreter on Double. -/
theorem interpretFrom_double (a : Nat) (tl : List Insn) :
    interpretFrom a (Insn.Double :: tl)
      = interpretFrom ((a * 2) % W64) tl := rfl

/-- Unfolding: the interpreter on Halve. -/
theorem interpretFrom_halve (a : Nat) (tl : List Insn) :
    interpretFrom a (Insn.Halve :: tl)
      = interpretFrom (a / 2) tl := rfl

/-- On safe runs the wrap-around interpreter computes the exact
(unwrapped) accumulator of the safety analysis. -/
theorem safeRun_interpret :
    ∀ (seq : List Insn) (a : Nat) (d : Option Nat) (a' : Nat)
      (d' : Option Nat),
      safeRun seq (a, d) = some (a', d') → a < 2 ^ 62 →
      interpretFrom a seq = a' ∧ a' < 2 ^ 62 := by
  intro seq
  induction seq with
  | nil =>
    intro a d a' d' h ha
    rw [safeRun_nil] at h
    cases h
    exact ⟨rfl, ha⟩
  | cons i tl ih =>
    intro a d a' d' h ha
    have hW : W64 = 2 ^ 64 := rfl
    have hlt : (2 : Nat) ^ 62 < 2 ^ 64 := by norm_num
    cases i with
    | Reset => rw [safeRun_cons, safeStep_reset] at h; cases h
    | Return => rw [safeRun_cons, safeStep_ret] at h; cases h
    | Incr =>
      rw [safeRun_cons, safeStep_incr] at h
      by_cases hg : a + 1 < 2 ^ 62
      · rw [if_pos hg, Option.some_bind] at h
        have hmod : (a + 1) % W64 = a + 1 := Nat.mod_eq_of_lt (by omega)
        rw [interpretFrom_incr, hmod]
        exact ih (a + 1) d a' d' h hg
      · rw [if_neg hg] at h; cases h
    | Decr =>
      rw [safeRun_cons, safeStep_decr] at h
      by_cases hg : 0 < a
      · rw [if_pos hg, Option.some_bind] at h
        rw [interpretFrom_decr, if_neg (by omega : ¬ a = 0)]
        exact ih (a - 1) d a' d' h (by omega)
      · rw [if_neg hg] at h; cases h
    | Double =>
      rw [safeRun_cons, safeStep_double] at h
      by_cases hg : a * 2 < 2 ^ 62
      · rw [if_pos hg, Option.some_bind] at h
        have hmod : (a * 2) % W64 = a * 2 := Nat.mod_eq_of_lt (by omega)
        rw [interpretFrom_double, hmod]
        exact ih (a * 2) (some 0) a' d' h hg
      · rw [if_neg hg] at h; cases h
    | Halve =>
      rw [safeRun_cons, safeStep_halve] at h
      by_cases hg : d = some 0
      · rw [if_pos hg, Option.some_bind] at h
        have hdiv : a / 2 < 2 ^ 62 :=
          Nat.lt_of_le_of_lt (Nat.div_le_self a 2) ha
        rw [interpretFrom_halve]
        exact ih (a / 2) (some (a % 2)) a' d' h hdiv
      · rw [if_neg hg] at h; cases h

/-- Unfolding: running the empty op list falls off the end. -/
theorem runMops_nil (s : MState) : runMops [] s = none := rfl

/-- Unfolding: running a cons stops at Ret, otherwise steps. -/
theorem runMops_cons (op : MOp) (rest : List MOp) (s : MState) :
    runMops (op :: rest) s
      = if op = MOp.Ret then some s
        else (stepOp op s).bind (runMops rest) := rfl

/-- Unfolding: XOR rax, rax zeroes RAX. -/
theorem stepOp_xor (s : MState) :
    stepOp MOp.XorRaxRax s = some { s with rax := 0 } := rfl

/-- Unfolding: ADD rax, 1. -/
theorem stepOp_add (s : MState) :
    stepOp MOp.AddRax1 s
      = some { s with rax := (s.rax + 1) % W64 } := rfl

/-- Unfolding: SUB rax, 1 (wrapping). -/
theorem stepOp_sub (s : MState) :
    stepOp MOp.SubRax1 s
      = some { s with rax := if s.rax = 0 then W64 - 1 else s.rax - 1 } := rfl

/-- Unfolding: MOV rcx, 2. -/
theorem stepOp_mov (s : MState) :
    stepOp MOp.MovRcx2 s = some { s with rcx := 2 } := rfl

/-- Signed 64-bit reading of a small natural register value. -/
theorem toI64_of_small (x : Nat) (hx : x < 2 ^ 63) : toI64 x = (x : Int) := by
  unfold toI64
  rw [if_pos hx]

/-- IMUL rcx with RCX = 2 and a small non-negative RAX doubles RAX and
clears RDX (the signed product's high 64 bits are zero). -/
theorem imul_small (s : MState) (hc : s.rcx = 2) (ha : s.rax < 2 ^ 62) :
    stepOp MOp.ImulRcx s
      = some { s with rax := s.rax * 2, rdx := 0 } := by
  show some _ = _
  have hp : toI64 s.rax * toI64 s.rcx = ((s.rax * 2 : Nat) : Int) := by
    rw [hc, toI64_of_small s.rax (by omega), toI64_of_small 2 (by norm_num)]
    push_cast
    ring
  have h0 : (0 : Int) ≤ ((s.rax * 2 : Nat) : Int) := Int.ofNat_nonneg _
  have h128 : ((s.rax * 2 : Nat) : Int) < (2 ^ 128 : Int) := by
    have : (s.rax * 2 : Nat) < 2 ^ 128 := by
      have h63 : (2 : Nat) ^ 62 * 2 ≤ 2 ^ 128 := by norm_num
      omega
    exact_mod_cast this
  have h64 : ((s.rax * 2 : Nat) : Int) < ((W64 : Nat) : Int) := by
    have hW : W64 = 2 ^ 64 := rfl
    have : (s.rax * 2 : Nat) < W64 := by
      have h63 : (2 : Nat) ^ 62 * 2 ≤ 2 ^ 64 := by norm_num
      omega
    exact_mod_cast this
  have e1 : ((s.rax * 2 : Nat) : Int) % (2 ^ 128 : Int)
      = ((s.rax * 2 : Nat) : Int) := Int.emod_eq_of_lt h0 h128
  have e2 : ((s.rax * 2 : Nat) : Int) % ((W64 : Nat) : Int)
      = ((s.rax * 2 : Nat) : Int) := Int.emod_eq_of_lt h0 h64
  have e3 : ((s.rax * 2 : Nat) : Int) / ((W64 : Nat) : Int)
      = 0 := Int.ediv_eq_zero_of_lt h0 h64
  rw [hp, e1, e2, e3]
  simp
  omega

/-- IDIV rcx with RCX = 2, RDX = 0 and a small non-negative RAX is
plain unsigned halving: quotient to RAX, remainder to RDX. -/
theorem idiv_small (s : MState) (hc : s.rcx = 2) (hd : s.rdx = 0)
    (ha : s.rax < 2 ^ 62) :
    stepOp MOp.IdivRcx s
      = some { s with rax := s.rax / 2, rdx := s.rax % 2 } := by
  show (if toI64 s.rcx = 0 then none else _) = _
  have hc2 : toI64 s.rcx = 2 := by
    rw [hc, toI64_of_small 2 (by norm_num)]
    rfl
  rw [hc2, if_neg (by norm_num : (2 : Int) ≠ 0)]
  have hval : rdxRaxVal s = ((s.rax : Nat) : Int) := by
    unfold rdxRaxVal
    rw [hd]
    have hlt : 0 * W64 + s.rax < 2 ^ 127 := by
      have : (2 : Nat) ^ 62 ≤ 2 ^ 127 := by norm_num
      omega
    rw [if_pos hlt]
    push_cast
    ring
  have hq : (rdxRaxVal s).tdiv (toI64 s.rcx) = ((s.rax / 2 : Nat) : Int) := by
    rw [hval, hc2, Int.ofNat_tdiv]
    norm_num
  have hr : (rdxRaxVal s).tmod (toI64 s.rcx) = ((s.rax % 2 : Nat) : Int) := by
    rw [hval, hc2, Int.ofNat_tmod]
    norm_num
  rw [hc2] at hq hr
  rw [hq, hr]
  have hq0 : (0 : Int) ≤ ((s.rax / 2 : Nat) : Int) := Int.ofNat_nonneg _
  have hq63 : ¬(((s.rax / 2 : Nat) : Int) < -(2 ^ 63 : Int)
      ∨ (2 ^ 63 : Int) ≤ ((s.rax / 2 : Nat) : Int)) := by
    push_neg
    constructor
    · have : -(2 ^ 63 : Int) < 0 := by norm_num
      omega
    · have hlt : (s.rax / 2 : Nat) < 2 ^ 63 := by
        have h1 : s.rax / 2 ≤ s.rax := Nat.div_le_self _ _
        have h2 : (2 : Nat) ^ 62 ≤ 2 ^ 63 := by norm_num
        omega
      exact_mod_cast hlt
  rw [if_neg hq63]
  have hW : ((W64 : Nat) : Int) = (2 ^ 64 : Int) := by norm_num [W64]
  have hqW : ((s.rax / 2 : Nat) : Int) < ((W64 : Nat) : Int) := by
    rw [hW]
    have hlt : (s.rax / 2 : Nat) < 2 ^ 64 := by
      have h1 : s.rax / 2 ≤ s.rax := Nat.div_le_self _ _
      have h2 : (2 : Nat) ^ 62 ≤ 2 ^ 64 := by norm_num
      omega
    exact_mod_cast hlt
  have hr0 : (0 : Int) ≤ ((s.rax % 2 : Nat) : Int) := Int.ofNat_nonneg _
  have hrW : ((s.rax % 2 : Nat) : Int) < ((W64 : Nat) : Int) := by
    rw [hW]
    have hlt : (s.rax % 2 : Nat) < 2 ^ 64 := by
      have h1 : s.rax % 2 < 2 := Nat.mod_lt _ (by norm_num)
      omega
    exact_mod_cast hlt
  have e1 : ((s.rax / 2 : Nat) : Int) % ((W64 : Nat) : Int)
      = ((s.rax / 2 : Nat) : Int) := Int.emod_eq_of_lt hq0 hqW
  have e2 : ((s.rax % 2 : Nat) : Int) % ((W64 : Nat) : Int)
      = ((s.rax % 2 : Nat) : Int) := Int.emod_eq_of_lt hr0 hrW
  rw [e1, e2]
  simp
  omega

/-- Simulation: whenever the safety analysis accepts a sequence from
accumulator `a` and RDX knowledge `d`, the machine run of the
sequence's ops (followed by Ret) from any matching state terminates in
a state whose RAX is the analysis accumulator. -/
theorem safeRun_sim :
    ∀ (seq : List Insn) (a : Nat) (d : Option Nat) (a' : Nat)
      (d' : Option Nat),
      safeRun seq (a, d) = some (a', d') → a < 2 ^ 62 →
      ∀ s : MState, s.rax = a → dOK d s →
        ∃ s' : MState,
          runMops (mopsOf seq ++ [MOp.Ret]) s = some s'
            ∧ s'.rax = a' ∧ dOK d' s' := by
  intro seq
  induction seq with
  | nil =>
    intro a d a' d' h ha s hrax hd
    rw [safeRun_nil] at h
    cases h
    refine ⟨s, ?_, hrax, hd⟩
    show runMops [MOp.Ret] s = some s
    rw [runMops_cons, if_pos rfl]
  | cons i tl ih =>
    intro a d a' d' h ha s hrax hd
    rw [safeRun_cons] at h
    have hlist : mopsOf (i :: tl) ++ [MOp.Ret]
        = mopsOfInsn i ++ (mopsOf tl ++ [MOp.Ret]) := by
      rw [mopsOf_cons, List.append_assoc]
    cases i with
    | Reset => rw [safeStep_reset] at h; cases h
    | Return => rw [safeStep_ret] at h; cases h
    | Incr =>
      rw [safeStep_incr] at h
      by_cases hg : a + 1 < 2 ^ 62
      · rw [if_pos hg, Option.some_bind] at h
        rw [hlist]
        show ∃ s', runMops (MOp.AddRax1 :: (mopsOf tl ++ [MOp.Ret])) s
          = some s' ∧ s'.rax = a' ∧ dOK d' s'
        rw [runMops_cons, if_neg (by decide), stepOp_add, Option.some_bind]
        have hmod : (s.rax + 1) % W64 = a + 1 := by
          rw [hrax]
          have hW : W64 = 2 ^ 64 := rfl
          exact Nat.mod_eq_of_lt (by omega)
        exact ih (a + 1) d a' d' h hg _ (by simp [hmod]) (by
          intro v hv
          exact hd v hv)
      · rw [if_neg hg] at h; cases h
    | Decr =>
      rw [safeStep_decr] at h
      by_cases hg : 0 < a
      · rw [if_pos hg, Option.some_bind] at h
        rw [hlist]
        show ∃ s', runMops (MOp.SubRax1 :: (mopsOf tl ++ [MOp.Ret])) s
          = some s' ∧ s'.rax = a' ∧ dOK d' s'
        rw [runMops_cons, if_neg (by decide), stepOp_sub, Option.some_bind]
        have hsub : (if s.rax = 0 then W64 - 1 else s.rax - 1) = a - 1 := by
          rw [hrax, if_neg (by omega : ¬ a = 0)]
        exact ih (a - 1) d a' d' h (by omega) _ (by simp [hsub]) (by
          intro v hv
          exact hd v hv)
      · rw [if_neg hg] at h; cases h
    | Double =>
      rw [safeStep_double] at h
      by_cases hg : a * 2 < 2 ^ 62
      · rw [if_pos hg, Option.some_bind] at h
        rw [hlist]
        show ∃ s', runMops
          (MOp.MovRcx2 :: MOp.ImulRcx :: (mopsOf tl ++ [MOp.Ret])) s
          = some s' ∧ s'.rax = a' ∧ dOK d' s'
        rw [runMops_cons, if_neg (by decide), stepOp_mov, Option.some_bind,
          runMops_cons, if_neg (by decide)]
        rw [imul_small _ rfl (by simpa [hrax] using ha), Option.some_bind]
        exact ih (a * 2) (some 0) a' d' h hg _ (by simp [hrax]) (by
          intro v hv
          cases hv
          rfl)
      · rw [if_neg hg] at h; cases h
    | Halve =>
      rw [safeStep_halve] at h
      by_cases hg : d = some 0
      · rw [if_pos hg, Option.some_bind] at h
        rw [hlist]
        show ∃ s', runMops
          (MOp.MovRcx2 :: MOp.IdivRcx :: (mopsOf tl ++ [MOp.Ret])) s
          = some s' ∧ s'.rax = a' ∧ dOK d' s'
        rw [runMops_cons, if_neg (by decide), stepOp_mov, Option.some_bind,
          runMops_cons, if_neg (by decide)]
        have hrdx : s.rdx = 0 := hd 0 hg
        rw [idiv_small _ rfl (by simpa using hrdx)
          (by simpa [hrax] using ha), Option.some_bind]
        have hdiv : a / 2 < 2 ^ 62 :=
          Nat.lt_of_le_of_lt (Nat.div_le_self a 2) ha
        exact ih (a / 2) (some (a % 2)) a' d' h hdiv _ (by simp [hrax]) (by
          intro v hv
          cases hv
          simp [hrax])
      · rw [if_neg hg] at h; cases h

/-- `interpret` is the loop from accumulator 0. -/
theorem interpret_eq (seq : List Insn) :
    interpret seq = interpretFrom 0 seq := rfl

/-- With a fully cooperative host the engine returns the call's value. -/
theorem execEngine_ok_snd (code : List Nat) (s0 : MState) :
    (execEngine ⟨true, true, true⟩ code s0).2
      = Except.ok (execBytes code s0) := rfl

/-- Run step: XOR rax, rax. -/
theorem run_xor (rest : List MOp) (s : MState) :
    runMops (MOp.XorRaxRax :: rest) s
      = runMops rest { s with rax := 0 } := by
  rw [runMops_cons, if_neg (by decide), stepOp_xor, Option.some_bind]

/-- Run step: ADD rax, 1. -/
theorem run_add (rest : List MOp) (s : MState) :
    runMops (MOp.AddRax1 :: rest) s
      = runMops rest { s with rax := (s.rax + 1) % W64 } := by
  rw [runMops_cons, if_neg (by decide), stepOp_add, Option.some_bind]

/-- Run step: SUB rax, 1 (wrapping). -/
theorem run_sub (rest : List MOp) (s : MState) :
    runMops (MOp.SubRax1 :: rest) s
      = runMops rest
          { s with rax := if s.rax = 0 then W64 - 1 else s.rax - 1 } := by
  rw [runMops_cons, if_neg (by decide), stepOp_sub, Option.some_bind]

/-- Run step: MOV rcx, 2. -/
theorem run_mov (rest : List MOp) (s : MState) :
    runMops (MOp.MovRcx2 :: rest) s
      = runMops rest { s with rcx := 2 } := by
  rw [runMops_cons, if_neg (by decide), stepOp_mov, Option.some_bind]

/-- Run step: IMUL rcx, in full generality. -/
theorem run_imul (rest : List MOp) (s : MState) :
    runMops (MOp.ImulRcx :: rest) s
      = runMops rest
          { s with
            rax := (toI64 s.rax * toI64 s.rcx % (2 ^ 128 : Int)
              % ((W64 : Nat) : Int)).toNat,
            rdx := (toI64 s.rax * toI64 s.rcx % (2 ^ 128 : Int)
              / ((W64 : Nat) : Int)).toNat } := by
  rw [runMops_cons, if_neg (by decide)]
  rfl

/-- Run step: IDIV rcx in the benign case (RCX = 2, RDX = 0, small
RAX). -/
theorem run_idiv_small (rest : List MOp) (s : MState) (hc : s.rcx = 2)
    (hd : s.rdx = 0) (ha : s.rax < 2 ^ 62) :
    runMops (MOp.IdivRcx :: rest) s
      = runMops rest { s with rax := s.rax / 2, rdx := s.rax % 2 } := by
  rw [runMops_cons, if_neg (by decide), idiv_small s hc hd ha,
    Option.some_bind]

/-- Run step: RET stops. -/
theorem run_ret (rest : List MOp) (s : MState) :
    runMops (MOp.Ret :: rest) s = some s := by
  rw [runMops_cons, if_pos rfl]

/-- Scenario: the empty sequence executes to 0. -/
theorem scenario_empty (a c d : Nat) :
    execBytes (jit []) ⟨a, c, d⟩ = some (0 : Int) := by
  show (decodeX86 _).bind _ = _
  rw [decode_jit, Option.some_bind]
  have hm : mopsOf [] ++ [MOp.Ret] = [MOp.Ret] := by simp [mopsOf]
  rw [hm, run_xor, run_ret]
  norm_num [toI64, W64]

/-- Scenario: [Increment] executes to 1. -/
theorem scenario_incr (a c d : Nat) :
    execBytes (jit [Insn.Incr]) ⟨a, c, d⟩ = some (1 : Int) := by
  show (decodeX86 _).bind _ = _
  rw [decode_jit, Option.some_bind]
  have hm : mopsOf [Insn.Incr] ++ [MOp.Ret]
      = [MOp.AddRax1, MOp.Ret] := by simp [mopsOf, mopsOfInsn]
  rw [hm, run_xor, run_add, run_ret]
  norm_num [toI64, W64]

/-- Scenario: [Decrement] executes to -1. -/
theorem scenario_decr (a c d : Nat) :
    execBytes (jit [Insn.Decr]) ⟨a, c, d⟩ = some (-1 : Int) := by
  show (decodeX86 _).bind _ = _
  rw [decode_jit, Option.some_bind]
  have hm : mopsOf [Insn.Decr] ++ [MOp.Ret]
      = [MOp.SubRax1, MOp.Ret] := by simp [mopsOf, mopsOfInsn]
  rw [hm, run_xor, run_sub, run_ret]
  norm_num [toI64, W64]

/-- Scenario: [Increment, Double, Double] executes to 4. -/
theorem scenario_idd (a c d : Nat) :
    execBytes (jit [Insn.Incr, Insn.Double, Insn.Double]) ⟨a, c, d⟩
      = some (4 : Int) := by
  show (decodeX86 _).bind _ = _
  rw [decode_jit, Option.some_bind]
  have hm : mopsOf [Insn.Incr, Insn.Double, Insn.Double] ++ [MOp.Ret]
      = [MOp.AddRax1, MOp.MovRcx2, MOp.ImulRcx, MOp.MovRcx2,
         MOp.ImulRcx, MOp.Ret] := by simp [mopsOf, mopsOfInsn]
  rw [hm, run_xor, run_add, run_mov, run_imul, run_mov, run_imul,
    run_ret]
  norm_num [toI64, W64]

/-- Scenario: [Decrement, Double, Double] executes to -4 (the machine
tracks the negative value in two's complement through IMUL). -/
theorem scenario_ddd (a c d : Nat) :
    execBytes (jit [Insn.Decr, Insn.Double, Insn.Double]) ⟨a, c, d⟩
      = some (-4 : Int) := by
  show (decodeX86 _).bind _ = _
  rw [decode_jit, Option.some_bind]
  have hm : mopsOf [Insn.Decr, Insn.Double, Insn.Double] ++ [MOp.Ret]
      = [MOp.SubRax1, MOp.MovRcx2, MOp.ImulRcx, MOp.MovRcx2,
         MOp.ImulRcx, MOp.Ret] := by simp [mopsOf, mopsOfInsn]
  rw [hm, run_xor, run_sub, run_mov, run_imul, run_mov, run_imul,
    run_ret]
  norm_num [toI64, W64]

/-- Scenario: the seven-instruction program executes to 3. -/
theorem scenario_long (a c d : Nat) :
    execBytes (jit [Insn.Incr, Insn.Double, Insn.Double, Insn.Double,
      Insn.Decr, Insn.Decr, Insn.Halve]) ⟨a, c, d⟩ = some (3 : Int) := by
  show (decodeX86 _).bind _ = _
  rw [decode_jit, Option.some_bind]
  have hm : mopsOf [Insn.Incr, Insn.Double, Insn.Double, Insn.Double,
      Insn.Decr, Insn.Decr, Insn.Halve] ++ [MOp.Ret]
      = [MOp.AddRax1, MOp.MovRcx2, MOp.ImulRcx, MOp.MovRcx2,
         MOp.ImulRcx, MOp.MovRcx2, MOp.ImulRcx, MOp.SubRax1,
         MOp.SubRax1, MOp.MovRcx2, MOp.IdivRcx, MOp.Ret] := by
    simp [mopsOf, mopsOfInsn]
  rw [hm, run_xor, run_add, run_mov, run_imul, run_mov, run_imul,
    run_mov, run_imul, run_sub, run_sub, run_mov]
  norm_num [toI64, W64]
  rw [run_idiv_small _ _ rfl rfl (by decide), run_ret]
  decide

/-- Main refinement, bytes included: for a safe sequence, decoding and
running the generated buffer from any initial register state returns
exactly the interpreter's (non-negative, in-range) result. -/
theorem execBytes_jit_safe (seq : List Insn) (h : safeSeq seq = true)
    (s0 : MState) :
    execBytes (jit seq) s0 = some ((interpret seq : Nat) : Int) := by
  unfold safeSeq at h
  cases hrun : safeRun seq (0, none) with
  | none => rw [hrun] at h; cases h
  | some st =>
    obtain ⟨a', d'⟩ := st
    have hint := safeRun_interpret seq 0 none a' d' hrun (by norm_num)
    have hsim := safeRun_sim seq 0 none a' d' hrun (by norm_num)
    show (decodeX86 (jit seq)).bind _ = _
    rw [decode_jit, Option.some_bind]
    rw [runMops_cons, if_neg (by decide), stepOp_xor, Option.some_bind]
    obtain ⟨s', hs', hrax, _⟩ :=
      hsim { rax := 0, rcx := s0.rcx % W64, rdx := s0.rdx % W64 } rfl
        (by intro v hv; cases hv)
    rw [hs']
    have ha' : a' < 2 ^ 63 := by
      have h1 := hint.2
      have h2 : (2 : Nat) ^ 62 < 2 ^ 63 := by norm_num
      omega
    simp [hrax, toI64_of_small a' ha', interpret_eq, hint.1]

/-- The interpreter's u64 accumulator always stays below 2^64. -/
theorem interpretFrom_lt :
    ∀ (seq : List Insn) (a : Nat), a < W64 → interpretFrom a seq < W64
  | [], _, ha => ha
  | Insn.Reset :: rest, _, _ =>
    interpretFrom_lt rest 0 (by norm_num [W64])
  | Insn.Return :: _, _, ha => ha
  | Insn.Incr :: rest, a, _ =>
    interpretFrom_lt rest ((a + 1) % W64)
      (Nat.mod_lt _ (by norm_num [W64]))
  | Insn.Decr :: rest, a, ha =>
    interpretFrom_lt rest (if a = 0 then W64 - 1 else a - 1) (by
      by_cases h0 : a = 0
      · rw [if_pos h0]
        norm_num [W64]
      · rw [if_neg h0]
        omega)
  | Insn.Double :: rest, a, _ =>
    interpretFrom_lt rest ((a * 2) % W64)
      (Nat.mod_lt _ (by norm_num [W64]))
  | Insn.Halve :: rest, a, ha =>
    interpretFrom_lt rest (a / 2)
      (Nat.lt_of_le_of_lt (Nat.div_le_self _ _) ha)

/-- C1 (amended).  The claim as frozen fails on the code (see the
counterexample below); the refinement that does hold: for every
sequence of the four user-visible opcodes that is `safeSeq` — all
intermediate accumulator values stay non-negative and below 2^62, and
every Halve executes with RDX provably zero (a Double has occurred
before the first Halve, and no Halve of an odd value is followed by
another Halve without an intervening Double) — executing the generated
code from any initial register state returns exactly the reference
interpreter's result. -/
theorem jit_exec_matches_interpret_on_safe (seq : List Insn)
    (h : safeSeq seq = true) (s0 : MState) :
    (execEngine ⟨true, true, true⟩ (jit seq) s0).2
      = Except.ok (some ((interpret seq : Nat) : Int)) := by
  rw [execEngine_ok_snd, execBytes_jit_safe seq h s0]

/-- C1 witness: a concrete safe sequence run through the amended
theorem. -/
theorem jit_exec_matches_interpret_witness :
    safeSeq [Insn.Incr, Insn.Double, Insn.Halve] = true
      ∧ (execEngine ⟨true, true, true⟩
          (jit [Insn.Incr, Insn.Double, Insn.Halve]) ⟨3, 4, 5⟩).2
        = Except.ok
            (some ((interpret [Insn.Incr, Insn.Double, Insn.Halve]
              : Nat) : Int)) :=
  ⟨by decide,
   jit_exec_matches_interpret_on_safe _ (by decide) ⟨3, 4, 5⟩⟩

/-- C1 counterexample: the sequence [Decrement], whose accumulator
values (0 and -1) fit the native signed 64-bit width, is executed by
the generated code to -1, while the reference interpreter's u64
accumulator wraps to 2^64 - 1 (and panics in a checked build), so
interpret(seq) and execute(generate(seq)) disagree. -/
theorem jit_exec_interpret_mismatch_decr :
    execBytes (jit [Insn.Decr]) ⟨0, 0, 0⟩ = some (-1 : Int)
      ∧ ((interpret [Insn.Decr] : Nat) : Int) = 2 ^ 64 - 1
      ∧ ((2 : Int) ^ 64 - 1) ≠ -1
      ∧ interpretChecked [Insn.Decr] = none :=
  ⟨scenario_decr 0 0 0, by decide, by decide, by decide⟩

/-- C2: generating and executing each concrete scenario sequence, from
any initial register state and with a cooperative host, yields exactly
the specified ExecutionResult: [] gives 0, [Incr] gives 1, [Decr]
gives -1, [Incr, Double, Double] gives 4, [Decr, Double, Double]
gives -4, and the seven-instruction program gives 3. -/
theorem concrete_scenarios_exec (a c d : Nat) :
    (execEngine ⟨true, true, true⟩ (jit []) ⟨a, c, d⟩).2
        = Except.ok (some (0 : Int))
      ∧ (execEngine ⟨true, true, true⟩ (jit [Insn.Incr]) ⟨a, c, d⟩).2
        = Except.ok (some (1 : Int))
      ∧ (execEngine ⟨true, true, true⟩ (jit [Insn.Decr]) ⟨a, c, d⟩).2
        = Except.ok (some (-1 : Int))
      ∧ (execEngine ⟨true, true, true⟩
          (jit [Insn.Incr, Insn.Double, Insn.Double]) ⟨a, c, d⟩).2
        = Except.ok (some (4 : Int))
      ∧ (execEngine ⟨true, true, true⟩
          (jit [Insn.Decr, Insn.Double, Insn.Double]) ⟨a, c, d⟩).2
        = Except.ok (some (-4 : Int))
      ∧ (execEngine ⟨true, true, true⟩
          (jit [Insn.Incr, Insn.Double, Insn.Double, Insn.Double,
            Insn.Decr, Insn.Decr, Insn.Halve]) ⟨a, c, d⟩).2
        = Except.ok (some (3 : Int)) := by
  refine ⟨?_, ?_, ?_, ?_, ?_, ?_⟩ <;> rw [execEngine_ok_snd]
  · rw [scenario_empty]
  · rw [scenario_incr]
  · rw [scenario_decr]
  · rw [scenario_idd]
  · rw [scenario_ddd]
  · rw [scenario_long]

/-- C3: for every instruction sequence, the generated buffer is
exactly the Reset emitter's bytes, then each instruction's emitter
bytes in sequence order, then the Return emitter's bytes, with no
other bytes anywhere. -/
theorem generate_prologue_body_epilogue (seq : List Insn) :
    jit seq = x86_64.reset_accum
      ++ (seq.map x86_64.native_insns).flatten
      ++ x86_64.func_return :=
  jit_eq seq

/-- C10: the reference interpreter's accumulator is an unsigned 64-bit
integer: every result is a u64 below 2^64; Decrement at accumulator 0
underflows — `none` (a panic) in the checked model, wrap-around to
2^64 - 1 in the release model — instead of producing -1. -/
theorem interpret_u64_accumulator :
    (∀ seq : List Insn, interpret seq < 2 ^ 64)
      ∧ interpretChecked [Insn.Decr] = none
      ∧ interpret [Insn.Decr] = 2 ^ 64 - 1
      ∧ ((interpret [Insn.Decr] : Nat) : Int) ≠ -1 := by
  refine ⟨?_, by decide, by decide, by decide⟩
  intro seq
  exact interpretFrom_lt seq 0 (by norm_num [W64])

/-- C4: in every execution of the engine, the region's event trace is
a prefix of the mandatory order allocate-writable, copy (while
writable), make-read-only, make-executable, call; no event's
permission state is writable and executable at the same time, and the
copy happens only in the writable state. -/
theorem region_permission_discipline (h : Host) (code : List Nat)
    (s0 : MState) :
    (∃ n : Nat, (execEngine h code s0).1
        = [Ev.Alloc, Ev.CopyBuf, Ev.MakeReadOnly, Ev.MakeExec,
           Ev.CallFn].take n)
      ∧ (∀ e ∈ (execEngine h code s0).1,
          ¬((permAfter e).w = true ∧ (permAfter e).x = true))
      ∧ (∀ e ∈ (execEngine h code s0).1,
          e = Ev.CopyBuf → permAfter e = { w := true, x := false }) := by
  obtain ⟨ao, ro, eo⟩ := h
  cases ao with
  | false =>
    have ht : (execEngine ⟨false, ro, eo⟩ code s0).1 = [] := rfl
    rw [ht]
    exact ⟨⟨0, rfl⟩, by decide, by decide⟩
  | true =>
    cases ro with
    | false =>
      have ht : (execEngine ⟨true, false, eo⟩ code s0).1
          = [Ev.Alloc, Ev.CopyBuf] := rfl
      rw [ht]
      exact ⟨⟨2, rfl⟩, by decide, by decide⟩
    | true =>
      cases eo with
      | false =>
        have ht : (execEngine ⟨true, true, false⟩ code s0).1
            = [Ev.Alloc, Ev.CopyBuf, Ev.MakeReadOnly] := rfl
        rw [ht]
        exact ⟨⟨3, rfl⟩, by decide, by decide⟩
      | true =>
        have ht : (execEngine ⟨true, true, true⟩ code s0).1
            = [Ev.Alloc, Ev.CopyBuf, Ev.MakeReadOnly, Ev.MakeExec,
               Ev.CallFn] := rfl
        rw [ht]
        exact ⟨⟨5, rfl⟩, by decide, by decide⟩

/-- C4 witness: with a cooperative host the copy event occurs, and its
permission state is writable, not executable. -/
theorem region_permission_discipline_witness :
    Ev.CopyBuf ∈ (execEngine ⟨true, true, true⟩ [] ⟨0, 0, 0⟩).1
      ∧ permAfter Ev.CopyBuf = { w := true, x := false } :=
  ⟨by decide,
   (region_permission_discipline ⟨true, true, true⟩ [] ⟨0, 0, 0⟩).2.2
     Ev.CopyBuf (by decide) rfl⟩

/-- C6: the engine returns either a signed 64-bit result or a
structured failure separating allocation failure from
permission-transition failure; the first failing step is terminal —
an allocation failure yields AllocationError whatever the later steps
would do, a permission failure yields PermissionError, and a result is
returned only when every step succeeded. -/
theorem exec_error_surface (h : Host) (code : List Nat) (s0 : MState) :
    (h.allocOk = false →
        (execEngine h code s0).2
          = Except.error ExecError.AllocationError)
      ∧ (h.allocOk = true → (h.roOk = false ∨ h.execOk = false) →
        (execEngine h code s0).2
          = Except.error ExecError.PermissionError)
      ∧ (h.allocOk = true → h.roOk = true → h.execOk = true →
        (execEngine h code s0).2 = Except.ok (execBytes code s0)) := by
  obtain ⟨ao, ro, eo⟩ := h
  cases ao <;> cases ro <;> cases eo <;>
    refine ⟨fun h1 => ?_, fun h1 h2 => ?_, fun h1 h2 h3 => ?_⟩ <;>
    first
      | rfl
      | exact absurd h1 (by decide)
      | exact absurd h2 (by decide)
      | exact absurd h3 (by decide)

/-- C6 witness: a failing allocation and a failing read-only
transition surface the two distinct errors. -/
theorem exec_error_surface_witness :
    (execEngine ⟨false, true, true⟩ [] ⟨0, 0, 0⟩).2
        = Except.error ExecError.AllocationError
      ∧ (execEngine ⟨true, false, true⟩ [] ⟨0, 0, 0⟩).2
        = Except.error ExecError.PermissionError :=
  ⟨(exec_error_surface ⟨false, true, true⟩ [] ⟨0, 0, 0⟩).1 rfl,
   (exec_error_surface ⟨true, false, true⟩ [] ⟨0, 0, 0⟩).2.1 rfl
     (Or.inl rfl)⟩

/-- Unfolding: runAll on the empty block. -/
theorem runAll_nil (s : MState) : runAll [] s = some s := rfl

/-- Unfolding: runAll on a cons. -/
theorem runAll_cons (op : MOp) (rest : List MOp) (s : MState) :
    runAll (op :: rest) s = (stepOp op s).bind (runAll rest) := rfl

/-- Unfolding: the general IMUL rcx step. -/
theorem stepOp_imul (s : MState) :
    stepOp MOp.ImulRcx s
      = some { s with
          rax := (toI64 s.rax * toI64 s.rcx % (2 ^ 128 : Int)
            % ((W64 : Nat) : Int)).toNat,
          rdx := (toI64 s.rax * toI64 s.rcx % (2 ^ 128 : Int)
            / ((W64 : Nat) : Int)).toNat } := rfl

/-- When RDX holds the sign-extension bits of RAX, the register pair
RDX:RAX reads back as the signed value of RAX. -/
theorem rdxRaxVal_signext (s : MState) (hx : s.rax < W64)
    (hd : s.rdx = if s.rax < 2 ^ 63 then 0 else W64 - 1) :
    rdxRaxVal s = toI64 s.rax := by
  unfold rdxRaxVal toI64
  have hW : W64 = 2 ^ 64 := rfl
  by_cases hlt : s.rax < 2 ^ 63
  · rw [hd, if_pos hlt, if_pos hlt]
    show (if 0 * W64 + s.rax < 2 ^ 127
        then ((0 * W64 + s.rax : Nat) : Int)
        else ((0 * W64 + s.rax : Nat) : Int) - (2 ^ 128 : Int))
      = ((s.rax : Nat) : Int)
    have h0 : 0 * W64 + s.rax = s.rax := by omega
    rw [h0, if_pos (by omega : s.rax < 2 ^ 127)]
  · rw [hd, if_neg hlt, if_neg hlt]
    have hbig : (2 : Nat) ^ 127 ≤ (W64 - 1) * W64 := by
      norm_num [W64]
    show (if (W64 - 1) * W64 + s.rax < 2 ^ 127
        then (((W64 - 1) * W64 + s.rax : Nat) : Int)
        else (((W64 - 1) * W64 + s.rax : Nat) : Int) - (2 ^ 128 : Int))
      = ((s.rax : Nat) : Int) - ((W64 : Nat) : Int)
    rw [if_neg (by omega : ¬ (W64 - 1) * W64 + s.rax < 2 ^ 127)]
    have h1 : (1 : Nat) ≤ W64 := by norm_num [W64]
    have hcast : (((W64 - 1) * W64 + s.rax : Nat) : Int)
        = (((W64 : Nat) : Int) - 1) * ((W64 : Nat) : Int)
          + ((s.rax : Nat) : Int) := by
      push_cast [h1]
      ring
    rw [hcast]
    have h2 : ((W64 : Nat) : Int) = (2 ^ 64 : Int) := by
      norm_num [W64]
    rw [h2]
    ring_nf

/-- Bounds of truncating division by 2 on the signed 64-bit range. -/
theorem tdiv_two_in_range (x : Nat) (hx : x < W64) :
    ¬((toI64 x).tdiv 2 < -(2 ^ 63 : Int)
      ∨ (2 ^ 63 : Int) ≤ (toI64 x).tdiv 2) := by
  have hW : W64 = 2 ^ 64 := rfl
  unfold toI64
  by_cases hlt : x < 2 ^ 63
  · rw [if_pos hlt]
    have hq : ((x : Nat) : Int).tdiv 2 = ((x / 2 : Nat) : Int) :=
      (Int.ofNat_tdiv x 2).symm
    rw [hq]
    push_neg
    constructor
    · have : (0 : Int) ≤ ((x / 2 : Nat) : Int) := Int.ofNat_nonneg _
      omega
    · have hlt2 : (x / 2 : Nat) < 2 ^ 63 := by omega
      exact_mod_cast hlt2
  · rw [if_neg hlt]
    have hm : ((x : Nat) : Int) - ((W64 : Nat) : Int)
        = -(((W64 - x : Nat) : Int)) := by
      have hle : x ≤ W64 := by omega
      push_cast [hle]
      ring
    rw [hm, Int.neg_tdiv]
    have hq : ((W64 - x : Nat) : Int).tdiv 2
        = (((W64 - x) / 2 : Nat) : Int) :=
      (Int.ofNat_tdiv (W64 - x) 2).symm
    rw [hq]
    push_neg
    constructor
    · have hle2 : ((W64 - x) / 2 : Nat) ≤ 2 ^ 63 := by omega
      have : (((W64 - x) / 2 : Nat) : Int) ≤ ((2 : Int) ^ 63) := by
        exact_mod_cast hle2
      omega
    · have : (0 : Int) ≤ (((W64 - x) / 2 : Nat) : Int) :=
        Int.ofNat_nonneg _
      omega

/-- C5 (amended).  The claim as frozen fails on the code (see the
counterexample below); what does hold: the Halve emitter's bytes are
MOV rcx, 2 then IDIV rcx, and IDIV performs signed division truncating
toward zero only under the extra premise that RDX holds the
sign-extension of RAX — then the new RAX encodes tdiv(RAX, 2) in two's
complement.  The reference interpreter's Halve, by contrast, is
unsigned u64 division of the accumulator by 2. -/
theorem halve_signed_div_amended (s : MState) (hx : s.rax < W64)
    (hrdx : s.rdx = if s.rax < 2 ^ 63 then 0 else W64 - 1) :
    decodeX86 x86_64.halve = some [MOp.MovRcx2, MOp.IdivRcx]
      ∧ (runAll [MOp.MovRcx2, MOp.IdivRcx] s).map MState.rax
        = some (((toI64 s.rax).tdiv 2 % ((W64 : Nat) : Int)).toNat)
      ∧ (∀ a : Nat, interpretFrom a [Insn.Halve] = a / 2) := by
  refine ⟨rfl, ?_, fun a => rfl⟩
  rw [runAll_cons, stepOp_mov, Option.some_bind, runAll_cons]
  have hc2 : toI64 (2 : Nat) = 2 := by
    unfold toI64
    rw [if_pos (by norm_num)]
    rfl
  have hval : rdxRaxVal { s with rcx := 2 } = toI64 s.rax := by
    have := rdxRaxVal_signext { s with rcx := 2 } (by simpa using hx)
      (by simpa using hrdx)
    simpa using this
  show ((if toI64 (2 : Nat) = 0 then none else _).bind _).map _ = _
  rw [hc2, if_neg (by norm_num : (2 : Int) ≠ 0), hval]
  rw [if_neg (tdiv_two_in_range s.rax hx)]
  rfl

/-- C5 witness: halving the two's-complement encoding of -8 yields the
encoding of -4 (truncating signed division on a negative value). -/
theorem halve_signed_div_witness :
    (W64 - 8 : Nat) < W64
      ∧ (runAll [MOp.MovRcx2, MOp.IdivRcx]
          { rax := W64 - 8, rcx := 0, rdx := W64 - 1 }).map MState.rax
        = some (((toI64 (W64 - 8)).tdiv 2 % ((W64 : Nat) : Int)).toNat)
      ∧ ((toI64 (W64 - 8)).tdiv 2 % ((W64 : Nat) : Int)).toNat
        = W64 - 4 :=
  ⟨by decide,
   (halve_signed_div_amended { rax := W64 - 8, rcx := 0, rdx := W64 - 1 }
     (by decide) (by decide)).2.1,
   by decide⟩

/-- C5 counterexample: after [Decrement] the u64 interpreter holds the
two's-complement encoding of -1; signed truncating division would give
-1 / 2 = 0, but the interpreter's Halve does unsigned division and
returns 2^63 - 1, and the emitted code run with RDX = 0 (not the
sign-extension of RAX) returns the same wrong value. -/
theorem halve_not_signed_div_cex :
    toI64 (interpret [Insn.Decr]) = -1
      ∧ Int.tdiv (-1) 2 = 0
      ∧ interpret [Insn.Decr, Insn.Halve] = 2 ^ 63 - 1
      ∧ toI64 (interpret [Insn.Decr, Insn.Halve]) = 2 ^ 63 - 1
      ∧ ((2 : Int) ^ 63 - 1) ≠ 0
      ∧ execBytes (jit [Insn.Decr, Insn.Halve]) ⟨0, 0, 0⟩
        = some ((2 : Int) ^ 63 - 1) := by
  refine ⟨by decide, by decide, by decide, by decide, by decide,
    by decide⟩

/-- C7: the tokenizer maps each of the four recognized characters to
exactly one instruction, silently discards every other character, and
its output never contains the driver-only Reset or Return. -/
theorem parse_tokenizer_policy (s : String) :
    (charToInsn '+' = some Insn.Incr
        ∧ charToInsn '-' = some Insn.Decr
        ∧ charToInsn '*' = some Insn.Double
        ∧ charToInsn '/' = some Insn.Halve)
      ∧ (∀ ch : Char, ch ≠ '+' → ch ≠ '-' → ch ≠ '*' → ch ≠ '/' →
          charToInsn ch = none)
      ∧ (parse s).length
        = (s.toList.filter (fun ch => (charToInsn ch).isSome)).length
      ∧ (∀ i ∈ parse s, i ≠ Insn.Reset ∧ i ≠ Insn.Return) := by
  refine ⟨⟨by decide, by decide, by decide, by decide⟩, ?_, ?_, ?_⟩
  · intro ch h1 h2 h3 h4
    simp [charToInsn, h1, h2, h3, h4]
  · rw [parse_eq_filterMap]
    exact parseChars_length s.toList
  · intro i hi
    rw [parse_eq_filterMap] at hi
    obtain ⟨ch, _, hch⟩ := List.mem_filterMap.mp hi
    exact charToInsn_user ch i hch

/-- C7 witness: the program text with an unrecognized character parses
to the recognized instructions only, and the parsed instruction is
neither Reset nor Return. -/
theorem parse_tokenizer_policy_witness :
    charToInsn 'x' = none
      ∧ Insn.Incr ∈ parse "+x"
      ∧ (Insn.Incr ≠ Insn.Reset ∧ Insn.Incr ≠ Insn.Return) :=
  ⟨(parse_tokenizer_policy "+x").2.1 'x' (by decide) (by decide)
      (by decide) (by decide),
   by decide,
   (parse_tokenizer_policy "+x").2.2.2 Insn.Incr (by decide)⟩

/-- C8 (amended).  The claim as frozen fails on the code (see the
counterexample below); what does hold: the Reset, Return, Increment
and Decrement emitters' code touches only the accumulator RAX, leaving
RCX and RDX unchanged; the Double and Halve emitters use the scratch
RCX and additionally a third register, RDX — IMUL writes the product's
high half to RDX, and IDIV consumes RDX:RAX and writes the remainder
to RDX. -/
theorem emitter_register_usage_amended (s : MState) :
    (∀ i : Insn,
        i = Insn.Reset ∨ i = Insn.Return ∨ i = Insn.Incr
          ∨ i = Insn.Decr →
        (runAll (mopsOfInsn i) s).map (fun t => (t.rcx, t.rdx))
          = some (s.rcx, s.rdx))
      ∧ ((runAll (mopsOfInsn Insn.Double) s).map MState.rcx = some 2)
      ∧ ((runAll (mopsOfInsn Insn.Halve)
            { rax := 7, rcx := s.rcx, rdx := 0 }).map
          (fun t => (t.rcx, t.rdx)) = some (2, 1)) := by
  refine ⟨?_, ?_, ?_⟩
  · intro i hi
    rcases hi with h | h | h | h <;> subst h <;> rfl
  · show ((stepOp MOp.MovRcx2 s).bind _).map _ = _
    rw [stepOp_mov, Option.some_bind, runAll_cons, stepOp_imul,
      Option.some_bind, runAll_nil]
    rfl
  · show ((stepOp MOp.MovRcx2 _).bind _).map _ = _
    rw [stepOp_mov, Option.some_bind, runAll_cons,
      idiv_small _ rfl rfl (by norm_num), Option.some_bind, runAll_nil]
    norm_num

/-- C8 witness: the Increment emitter's code leaves RCX and RDX
exactly as they were. -/
theorem emitter_register_usage_witness :
    (runAll (mopsOfInsn Insn.Incr) ⟨5, 6, 7⟩).map
        (fun t => (t.rcx, t.rdx)) = some (6, 7) :=
  (emitter_register_usage_amended ⟨5, 6, 7⟩).1 Insn.Incr
    (Or.inr (Or.inr (Or.inl rfl)))

/-- C8 counterexample: the Double emitter's code is MOV rcx, 2 then
IMUL rcx, and running it changes RDX — a register that is neither the
accumulator RAX nor the scratch RCX — from 0 to 2^64 - 1 (the high
half of the signed product). -/
theorem double_emitter_writes_rdx :
    decodeX86 x86_64.double = some [MOp.MovRcx2, MOp.ImulRcx]
      ∧ (runAll [MOp.MovRcx2, MOp.ImulRcx]
          { rax := W64 - 1, rcx := 0, rdx := 0 }).map MState.rdx
        = some (W64 - 1)
      ∧ W64 - 1 ≠ 0 :=
  ⟨rfl, by decide, by decide⟩

/-- The OR-mask contributed by a list of REX options. -/
def rexMask : List x86_64.Rex → Nat
  | [] => 0
  | o :: rest => (1 <<< x86_64.rexShift o) ||| rexMask rest

/-- The rex fold from any accumulator ORs in the options' mask. -/
theorem rex_foldl_eq (opts : List x86_64.Rex) :
    ∀ acc : Nat,
      opts.foldl (fun r opt => r ||| (1 <<< x86_64.rexShift opt)) acc
        = acc ||| rexMask opts := by
  induction opts with
  | nil =>
    intro acc
    simp [rexMask]
  | cons o rest ih =>
    intro acc
    rw [List.foldl_cons, ih,
      show rexMask (o :: rest)
        = (1 <<< x86_64.rexShift o) ||| rexMask rest from rfl,
      Nat.or_assoc]

/-- The rex byte is the fixed 0100 prefix ORed with the option mask. -/
theorem rex_eq_or (opts : List x86_64.Rex) :
    x86_64.rex opts = 64 ||| rexMask opts :=
  rex_foldl_eq opts 64

/-- The option mask fits in the low nibble. -/
theorem rexMask_lt (opts : List x86_64.Rex) : rexMask opts < 16 := by
  induction opts with
  | nil => norm_num [rexMask]
  | cons o rest ih =>
    have ho : (1 <<< x86_64.rexShift o) < 16 := by cases o <;> decide
    exact Nat.or_lt_two_pow (n := 4) ho ih

/-- Each option's shifted bit tests exactly its own position. -/
theorem shift_testBit (o o0 : x86_64.Rex) :
    (1 <<< x86_64.rexShift o).testBit (x86_64.rexShift o0)
      = decide (o = o0) := by
  cases o <;> cases o0 <;> decide

/-- A mask bit is set exactly when its option was supplied. -/
theorem rexMask_testBit (o0 : x86_64.Rex) :
    ∀ opts : List x86_64.Rex,
      ((rexMask opts).testBit (x86_64.rexShift o0) = true ↔ o0 ∈ opts)
  | [] => by simp [rexMask, Nat.zero_testBit]
  | o :: rest => by
    rw [show rexMask (o :: rest)
        = (1 <<< x86_64.rexShift o) ||| rexMask rest from rfl,
      Nat.testBit_or, shift_testBit o o0]
    by_cases h : o = o0
    · subst h
      simp [List.mem_cons]
    · have h' : ¬ o0 = o := fun he => h he.symm
      simp [h, h', List.mem_cons, rexMask_testBit o0 rest]

/-- ORing a nibble into 64 is plain addition. -/
theorem or64_eq_add : ∀ v : Nat, v < 16 → 64 ||| v = 64 + v := by
  decide

/-- The rex byte as an addition. -/
theorem rex_eq_add (opts : List x86_64.Rex) :
    x86_64.rex opts = 64 + rexMask opts := by
  rw [rex_eq_or, or64_eq_add _ (rexMask_lt opts)]

/-- Low bits of the rex byte agree with the mask's bits. -/
theorem rex_testBit_low (opts : List x86_64.Rex) (j : Nat)
    (h64 : Nat.testBit 64 j = false) :
    (x86_64.rex opts).testBit j = (rexMask opts).testBit j := by
  rw [rex_eq_or, Nat.testBit_or, h64, Bool.false_or]

/-- The modrm byte of the three-field call is the packed formula. -/
theorem modrm_formula (m r b : Nat) :
    x86_64.modrm [x86_64.ModRM.Mod m, x86_64.ModRM.Reg r,
        x86_64.ModRM.RM b]
      = ((m % 4) <<< 6) ||| ((r % 8) <<< 3) ||| (b % 8) := by
  show ((0 ||| ((m &&& 3) <<< 6)) ||| ((r &&& 7) <<< 3)) ||| (b &&& 7)
    = _
  have h4 : m &&& 3 = m % 4 := by
    have h := Nat.and_pow_two_sub_one_eq_mod m 2
    norm_num at h
    exact h
  have h8r : r &&& 7 = r % 8 := by
    have h := Nat.and_pow_two_sub_one_eq_mod r 3
    norm_num at h
    exact h
  have h8b : b &&& 7 = b % 8 := by
    have h := Nat.and_pow_two_sub_one_eq_mod b 3
    norm_num at h
    exact h
  rw [h4, h8r, h8b, Nat.zero_or]

/-- C9: each bit-field encoder packs every supplied field at its
defined position, silently truncating the field value to its width:
modrm(Mod m, Reg r, RM b) ORs (m mod 4) at bit 6, (r mod 8) at bit 3
and (b mod 8) at bit 0 and stays one byte; rex always has high nibble
0100 (value div 16 is 4, hence one byte) with the W/R/X/B bits at
positions 3, 2, 1, 0 exactly when supplied. -/
theorem encoders_bit_packing (m r b : Nat)
    (opts : List x86_64.Rex) :
    x86_64.modrm [x86_64.ModRM.Mod m, x86_64.ModRM.Reg r,
        x86_64.ModRM.RM b]
      = ((m % 4) <<< 6) ||| ((r % 8) <<< 3) ||| (b % 8)
      ∧ x86_64.modrm [x86_64.ModRM.Mod m, x86_64.ModRM.Reg r,
          x86_64.ModRM.RM b] < 256
      ∧ x86_64.rex opts / 16 = 4
      ∧ x86_64.rex opts < 256
      ∧ ((x86_64.rex opts).testBit 3 = true ↔ x86_64.Rex.W ∈ opts)
      ∧ ((x86_64.rex opts).testBit 2 = true ↔ x86_64.Rex.R ∈ opts)
      ∧ ((x86_64.rex opts).testBit 1 = true ↔ x86_64.Rex.X ∈ opts)
      ∧ ((x86_64.rex opts).testBit 0 = true ↔ x86_64.Rex.B ∈ opts) := by
  have hmask := rexMask_lt opts
  have hadd := rex_eq_add opts
  refine ⟨modrm_formula m r b, ?_, by omega, by omega, ?_, ?_, ?_, ?_⟩
  · rw [modrm_formula]
    have hm : m % 4 < 4 := Nat.mod_lt _ (by norm_num)
    have hr : r % 8 < 8 := Nat.mod_lt _ (by norm_num)
    have hb : b % 8 < 8 := Nat.mod_lt _ (by norm_num)
    have h1 : (m % 4) <<< 6 < 256 := by
      rw [Nat.shiftLeft_eq]
      norm_num
      omega
    have h2 : (r % 8) <<< 3 < 256 := by
      rw [Nat.shiftLeft_eq]
      norm_num
      omega
    have h3 : b % 8 < 256 := by omega
    exact Nat.or_lt_two_pow (n := 8)
      (Nat.or_lt_two_pow (n := 8) h1 h2) h3
  · rw [rex_testBit_low opts 3 (by decide)]
    exact rexMask_testBit x86_64.Rex.W opts
  · rw [rex_testBit_low opts 2 (by decide)]
    exact rexMask_testBit x86_64.Rex.R opts
  · rw [rex_testBit_low opts 1 (by decide)]
    exact rexMask_testBit x86_64.Rex.X opts
  · rw [rex_testBit_low opts 0 (by decide)]
    exact rexMask_testBit x86_64.Rex.B opts

/-- C9 witness: out-of-range field values truncate to their width, and
the W option sets bit 3 of the rex byte. -/
theorem encoders_bit_packing_witness :
    x86_64.modrm [x86_64.ModRM.Mod 9, x86_64.ModRM.Reg 10,
        x86_64.ModRM.RM 11]
      = ((9 % 4) <<< 6) ||| ((10 % 8) <<< 3) ||| (11 % 8)
      ∧ (x86_64.rex [x86_64.Rex.W]).testBit 3 = true :=
  ⟨(encoders_bit_packing 9 10 11 []).1,
   (encoders_bit_packing 9 10 11 [x86_64.Rex.W]).2.2.2.2.1.mpr
     (by decide)⟩

end Jitcalc
